import Mathlib

/-!
Verification development for the CodeStruct AI backend.

This file gives a shallow embedding of the server's storage layer
(`MemStorage` in the storage module), of the relevant route handlers in
`src/server/routes.ts` (file upload, file patch), and of the analysis
dispatcher `analyzeCodebase` in `src/server/services/openai.ts`, and proves
properties of these definitions.

Modelling conventions:
- `randomUUID()` keys are modelled by a fresh-id counter (`nextId`); the
  well-formedness predicate `WF` states that all existing keys are below the
  counter and pairwise distinct, which is what UUID freshness provides.
- JavaScript `Map` objects are modelled as association lists in insertion
  order (`mapGet`/`mapSet`/`mapDelete`/`mapValues` mirror `get`/`set`/
  `delete`/`values`).
- `Date` timestamps are modelled as natural numbers passed in explicitly.
- A rejected `await` of a storage call inside the upload route's `try` block
  is modelled by a failure oracle `failAt : Option Nat` giving the index (in
  execution order) of the storage call whose promise rejects; the `catch`
  branch then answers with a 500 response, keeping whatever state mutations
  happened before the failing call.
-/

/-- Minimal JSON value model for the untyped (`any`) data flowing out of
`JSON.parse` and into stored analysis records. -/
inductive Json where
  | null : Json
  | bool (b : Bool) : Json
  | num (n : Int) : Json
  | str (s : String) : Json
  | arr (items : List Json) : Json
  | obj (fields : List (String × Json)) : Json

/-- Field lookup on a JSON object; `none` on non-objects and missing keys,
modelling JavaScript `undefined` property access. -/
def jsonField (j : Json) (key : String) : Option Json :=
  match j with
  | .obj fields => (fields.find? (fun p => p.1 = key)).map (·.2)
  | _ => none

/-- Number of fields of a JSON object (0 for non-objects). -/
def jsonObjSize (j : Json) : Nat :=
  match j with
  | .obj fields => fields.length
  | _ => 0

/-- Length of a JSON array (0 for non-arrays). -/
def jsonArrLen (j : Json) : Nat :=
  match j with
  | .arr items => items.length
  | _ => 0

/-- True when a JSON value has the structured shape the analysis prompt asks
for: a `detectedLanguages` object, an `issues` array and a `suggestions`
array. -/
def conformsToAnalysisShape (j : Json) : Bool :=
  (match jsonField j "detectedLanguages" with
   | some (.obj _) => true
   | _ => false) &&
  (match jsonField j "issues" with
   | some (.arr _) => true
   | _ => false) &&
  (match jsonField j "suggestions" with
   | some (.arr _) => true
   | _ => false)

/-- One file record handed to `analyzeCodebase` by the analyze route. -/
structure FileData where
  path : String
  content : String
  language : String
deriving DecidableEq

/-- Outcome of the `invokeAI` call as observed by `analyzeCodebase`:
either the promise rejected (`threw`), or it resolved with a response text
whose `JSON.parse` outcome is the given value (`returned none` models a
response on which `JSON.parse` throws). -/
inductive InvokeOutcome where
  | threw (msg : String)
  | returned (parsed : Option Json)

/-- The `files[0]?.path || "uploaded-file"` expression used by the demo
fallback of `analyzeCodebase` (note `||` also replaces an empty path). -/
def demoFilePath (files : List FileData) : String :=
  match files.head? with
  | some f => if f.path = "" then "uploaded-file" else f.path
  | none => "uploaded-file"

/-- The demo fallback object built in the `catch` branch of
`analyzeCodebase` when `invokeAI` itself throws. -/
def demoAnalysisJson (files : List FileData) : Json :=
  .obj [
    ("detectedLanguages", .obj [("TypeScript", .num 85), ("JavaScript", .num 15)]),
    ("architecture", .str "Express.js REST API with TypeScript, featuring modular route organization and authentication middleware"),
    ("issues", .arr [
      .obj [("type", .str "Code Quality"), ("severity", .str "medium"),
            ("file", .str (demoFilePath files)),
            ("description", .str "Consider adding comprehensive JSDoc comments for better code documentation")],
      .obj [("type", .str "Security"), ("severity", .str "low"),
            ("file", .str (demoFilePath files)),
            ("description", .str "Implement input validation for all user inputs to prevent injection attacks")]]),
    ("suggestions", .arr [
      .obj [("type", .str "Performance"), ("title", .str "Add request caching"),
            ("description", .str "Implement Redis or in-memory caching for frequently accessed data to improve response times"),
            ("file", .str (demoFilePath files))],
      .obj [("type", .str "Maintainability"), ("title", .str "Error handling standardization"),
            ("description", .str "Create a centralized error handling middleware to ensure consistent error responses"),
            ("file", .str (demoFilePath files))]])]

/-- The fallback object returned by `analyzeCodebase` when `JSON.parse`
throws on the response text. -/
def parseErrorFallbackJson : Json :=
  .obj [
    ("detectedLanguages", .obj [("unknown", .num 100)]),
    ("architecture", .str "Unable to analyze - parsing error"),
    ("issues", .arr []),
    ("suggestions", .arr [])]

/-- Shallow embedding of `analyzeCodebase` from the services module: the
result of the `invokeAI` call is supplied as an `InvokeOutcome`; the
function mirrors the nested try/catch structure (inner catch around
`JSON.parse`, outer catch around the whole body). An `Except.error` result
would model an exception escaping to the route handler. -/
def analyzeCodebase (files : List FileData) (outcome : InvokeOutcome) :
    Except String Json :=
  match outcome with
  | .returned (some j) => .ok j
  | .returned none => .ok parseErrorFallbackJson
  | .threw _ => .ok (demoAnalysisJson files)

/-! Association-list model of the JavaScript `Map` objects in `MemStorage`. -/

/-- Model of `Map.prototype.get`. -/
def mapGet {α : Type} (m : List (Nat × α)) (k : Nat) : Option α :=
  (m.find? (fun p => p.1 = k)).map (·.2)

/-- Model of `Map.prototype.has`. -/
def mapHas {α : Type} (m : List (Nat × α)) (k : Nat) : Bool :=
  m.any (fun p => p.1 = k)

/-- Model of `Map.prototype.set`: replaces in place when the key exists,
appends otherwise (JavaScript maps keep insertion order). -/
def mapSet {α : Type} (m : List (Nat × α)) (k : Nat) (v : α) : List (Nat × α) :=
  if mapHas m k then m.map (fun p => if p.1 = k then (k, v) else p)
  else m ++ [(k, v)]

/-- Model of `Map.prototype.delete` (the removal part; existence of the key
is queried separately with `mapHas` where the code uses the returned
boolean). -/
def mapDelete {α : Type} (m : List (Nat × α)) (k : Nat) : List (Nat × α) :=
  m.filter (fun p => ¬ p.1 = k)

/-- Model of `Array.from(map.values())`. -/
def mapValues {α : Type} (m : List (Nat × α)) : List α :=
  m.map (·.2)

/-- Model of `Array.from(map.keys())`. -/
def mapKeys {α : Type} (m : List (Nat × α)) : List Nat :=
  m.map (·.1)

/-! Entity records, following the shared schema as used by `MemStorage`. -/

structure User where
  id : Nat
  username : String
  email : String
  subscriptionTier : String
  trialEndsAt : Nat
  createdAt : Nat
deriving DecidableEq

structure InsertProject where
  name : String
  description : Option String
deriving DecidableEq

structure Project where
  id : Nat
  userId : Nat
  name : String
  description : Option String
  fileCount : Nat
  languageCount : Nat
  lastScanAt : Option Nat
  linesProcessed : Nat
  createdAt : Nat
deriving DecidableEq

structure InsertProjectFile where
  path : String
  content : String
  language : Option String
  size : Option Nat
deriving DecidableEq

structure ProjectFile where
  id : Nat
  projectId : Nat
  path : String
  content : String
  language : Option String
  size : Option Nat
  createdAt : Nat
deriving DecidableEq

/-- Stored analysis row: the payload handed to `createAnalysis` is the
untyped value produced by `analyzeCodebase`, kept here as a `Json`. -/
structure AnalysisResult where
  id : Nat
  projectId : Nat
  data : Json
  createdAt : Nat

/-- State of `MemStorage`: its four maps plus the fresh-id counter that
models `randomUUID` key generation. -/
structure MemStorage where
  users : List (Nat × User)
  projects : List (Nat × Project)
  projectFiles : List (Nat × ProjectFile)
  analysisResults : List (Nat × AnalysisResult)
  nextId : Nat

/-! Storage operations, translated from the `MemStorage` class. -/

/-- Embedding of `MemStorage.getProject`. -/
def getProject (st : MemStorage) (id : Nat) : Option Project :=
  mapGet st.projects id

/-- Embedding of `MemStorage.getProjectFiles`. -/
def getProjectFiles (st : MemStorage) (projectId : Nat) : List ProjectFile :=
  (mapValues st.projectFiles).filter (fun file => file.projectId = projectId)

/-- Embedding of `MemStorage.getProjectFile`. -/
def getProjectFile (st : MemStorage) (id : Nat) : Option ProjectFile :=
  mapGet st.projectFiles id

/-- Embedding of `MemStorage.createProject`. -/
def createProject (st : MemStorage) (userId : Nat) (insertProject : InsertProject)
    (now : Nat) : Project × MemStorage :=
  let id := st.nextId
  let project : Project :=
    { id := id, userId := userId, name := insertProject.name,
      description := insertProject.description, fileCount := 0,
      languageCount := 0, lastScanAt := none, linesProcessed := 0,
      createdAt := now }
  (project, { st with projects := mapSet st.projects id project, nextId := id + 1 })

/-- The fields of `Partial<Project>` that call sites pass to
`updateProject`; an absent field leaves the stored value unchanged, as the
object spread `{...project, ...updates}` does. -/
structure ProjectUpdates where
  name : Option String := none
  description : Option (Option String) := none
  fileCount : Option Nat := none
  languageCount : Option Nat := none
  lastScanAt : Option (Option Nat) := none
  linesProcessed : Option Nat := none

/-- The object spread `{...project, ...updates}`. -/
def applyProjectUpdates (p : Project) (u : ProjectUpdates) : Project :=
  { p with
    name := u.name.getD p.name,
    description := u.description.getD p.description,
    fileCount := u.fileCount.getD p.fileCount,
    languageCount := u.languageCount.getD p.languageCount,
    lastScanAt := u.lastScanAt.getD p.lastScanAt,
    linesProcessed := u.linesProcessed.getD p.linesProcessed }

/-- Embedding of `MemStorage.updateProject`. -/
def updateProject (st : MemStorage) (id : Nat) (updates : ProjectUpdates) :
    Option Project × MemStorage :=
  match mapGet st.projects id with
  | none => (none, st)
  | some project =>
    let updatedProject := applyProjectUpdates project updates
    (some updatedProject,
     { st with projects := mapSet st.projects id updatedProject })

/-- Embedding of `MemStorage.createProjectFile` (`size` and `language`
default to `null` via `??` when absent, which the `Option` fields already
express). -/
def createProjectFile (st : MemStorage) (projectId : Nat)
    (insertFile : InsertProjectFile) (now : Nat) : ProjectFile × MemStorage :=
  let id := st.nextId
  let file : ProjectFile :=
    { id := id, projectId := projectId, path := insertFile.path,
      content := insertFile.content, language := insertFile.language,
      size := insertFile.size, createdAt := now }
  (file, { st with projectFiles := mapSet st.projectFiles id file, nextId := id + 1 })

/-- The fields of `Partial<ProjectFile>` that call sites pass to
`updateProjectFile`. -/
structure ProjectFileUpdates where
  path : Option String := none
  content : Option String := none
  language : Option (Option String) := none
  size : Option (Option Nat) := none

/-- The object spread `{...file, ...updates}`. -/
def applyProjectFileUpdates (f : ProjectFile) (u : ProjectFileUpdates) : ProjectFile :=
  { f with
    path := u.path.getD f.path,
    content := u.content.getD f.content,
    language := u.language.getD f.language,
    size := u.size.getD f.size }

/-- Embedding of `MemStorage.updateProjectFile`. -/
def updateProjectFile (st : MemStorage) (id : Nat) (updates : ProjectFileUpdates) :
    Option ProjectFile × MemStorage :=
  match mapGet st.projectFiles id with
  | none => (none, st)
  | some file =>
    let updatedFile := applyProjectFileUpdates file updates
    (some updatedFile,
     { st with projectFiles := mapSet st.projectFiles id updatedFile })

/-- Embedding of `MemStorage.deleteProjectFiles`: collects the keys whose
value belongs to the project, deletes each, and always returns `true`. -/
def deleteProjectFiles (st : MemStorage) (projectId : Nat) : Bool × MemStorage :=
  let filesToDelete := (mapKeys st.projectFiles).filter
    (fun key => (mapGet st.projectFiles key).any (fun f => f.projectId = projectId))
  (true, { st with projectFiles := filesToDelete.foldl mapDelete st.projectFiles })

/-- Embedding of `MemStorage.deleteProject`: cascades to the project's files
and analysis rows, then deletes the project itself, returning whether it
existed. -/
def deleteProject (st : MemStorage) (id : Nat) : Bool × MemStorage :=
  let st1 := (deleteProjectFiles st id).2
  let analysesToDelete := (mapKeys st1.analysisResults).filter
    (fun key => (mapGet st1.analysisResults key).any (fun a => a.projectId = id))
  let st2 := { st1 with
    analysisResults := analysesToDelete.foldl mapDelete st1.analysisResults }
  (mapHas st2.projects id, { st2 with projects := mapDelete st2.projects id })

/-- Insertion step of the descending sort used by `getLatestAnalysis`
(comparator `(a, b) => b.createdAt - a.createdAt`). -/
def insertByCreatedAtDesc (a : AnalysisResult) :
    List AnalysisResult → List AnalysisResult
  | [] => [a]
  | b :: rest =>
    if a.createdAt ≤ b.createdAt then b :: insertByCreatedAtDesc a rest
    else a :: b :: rest

/-- Stable sort by descending creation timestamp, modelling
`Array.prototype.sort` with the comparator above. -/
def sortByCreatedAtDesc : List AnalysisResult → List AnalysisResult
  | [] => []
  | a :: rest => insertByCreatedAtDesc a (sortByCreatedAtDesc rest)

/-- Embedding of `MemStorage.getLatestAnalysis`: filter the project's
analyses, sort newest first, take element 0. -/
def getLatestAnalysis (st : MemStorage) (projectId : Nat) : Option AnalysisResult :=
  (sortByCreatedAtDesc
    ((mapValues st.analysisResults).filter (fun a => a.projectId = projectId))).head?

/-- Embedding of `MemStorage.createAnalysis`. -/
def createAnalysis (st : MemStorage) (projectId : Nat) (analysisData : Json)
    (now : Nat) : AnalysisResult × MemStorage :=
  let id := st.nextId
  let analysis : AnalysisResult :=
    { id := id, projectId := projectId, data := analysisData, createdAt := now }
  (analysis,
   { st with analysisResults := mapSet st.analysisResults id analysis, nextId := id + 1 })

/-- Well-formedness of one map: keys are pairwise distinct and below the
fresh-id counter. This is the invariant `randomUUID` key generation
provides. -/
def keysOk {α : Type} (m : List (Nat × α)) (n : Nat) : Prop :=
  (m.map Prod.fst).Nodup ∧ ∀ k ∈ m.map Prod.fst, k < n

instance {α : Type} (m : List (Nat × α)) (n : Nat) : Decidable (keysOk m n) := by
  unfold keysOk
  infer_instance

/-- Well-formedness of a whole `MemStorage` state. -/
def WF (st : MemStorage) : Prop :=
  keysOk st.users st.nextId ∧ keysOk st.projects st.nextId ∧
  keysOk st.projectFiles st.nextId ∧ keysOk st.analysisResults st.nextId

instance (st : MemStorage) : Decidable (WF st) := by
  unfold WF
  infer_instance

/-! Route layer, translated from `registerRoutes` in `src/server/routes.ts`. -/

/-- Splitting a character list at a separator, modelling
`String.prototype.split` with a single-character separator (an empty string
yields one empty group, as in JavaScript). -/
def splitChar (sep : Char) : List Char → List (List Char)
  | [] => [[]]
  | c :: cs =>
    match splitChar sep cs with
    | [] => [[]]
    | g :: gs => if c = sep then [] :: g :: gs else (c :: g) :: gs

/-- Number of lines of a file content, modelling
`content.split('\n').length`. -/
def lineCount (s : String) : Nat :=
  (splitChar (Char.ofNat 10) s.data).length

/-- Extension of a basename, modelling `path.extname` for ordinary file
names: the suffix from the last dot on, or empty when there is no dot or
the only relevant dot is the leading character. -/
def extnameChars (base : List Char) : List Char :=
  let rev := base.reverse
  let afterDot := rev.takeWhile (fun c => ¬ c = '.')
  if afterDot.length = base.length then []
  else if afterDot.length + 1 = base.length then []
  else '.' :: afterDot.reverse

/-- Lowercased extension of a path, modelling
`path.extname(filename).toLowerCase()` (the basename is the part after the
last slash). -/
def lowerExt (filename : String) : String :=
  let base := (splitChar '/' filename.data).getLastD []
  String.mk ((extnameChars base).map Char.toLower)

/-- The extension-to-language object literal in the upload route. -/
def languageMap : String → Option String
  | ".js" => some "javascript"
  | ".jsx" => some "javascript"
  | ".ts" => some "typescript"
  | ".tsx" => some "typescript"
  | ".py" => some "python"
  | ".java" => some "java"
  | ".cpp" => some "cpp"
  | ".c" => some "c"
  | ".cs" => some "csharp"
  | ".go" => some "go"
  | ".php" => some "php"
  | ".rb" => some "ruby"
  | ".rs" => some "rust"
  | ".kt" => some "kotlin"
  | ".swift" => some "swift"
  | ".html" => some "html"
  | ".css" => some "css"
  | ".scss" => some "scss"
  | ".sass" => some "sass"
  | ".json" => some "json"
  | ".xml" => some "xml"
  | ".yml" => some "yaml"
  | ".yaml" => some "yaml"
  | _ => none

/-- Embedding of the route helper `detectLanguage`
(`languageMap[ext] || 'text'`). -/
def detectLanguage (filename : String) : String :=
  match languageMap (lowerExt filename) with
  | some language => language
  | none => "text"

/-- One multipart file as the upload route sees it: `originalname`, the
UTF-8 decoded `buffer`, and `size`. -/
structure UploadFile where
  originalname : String
  buffer : String
  size : Nat
deriving DecidableEq

/-- Responses of the upload route, keeping the JSON summary fields of the
success body. -/
inductive UploadResponse where
  | badRequest
  | notFound
  | serverError
  | ok (fileCount languageCount linesProcessed : Nat)
deriving DecidableEq

/-- The `for (const file of files)` loop of the upload route. `opIdx` is the
execution-order index of the next storage call; when it equals the failure
oracle the corresponding `await storage.createProjectFile` rejects and the
loop aborts with the state reached so far. On success it yields the
`uploadedFiles` array, `totalLines`, and the final state. -/
def uploadLoop (st : MemStorage) (projectId : Nat) (files : List UploadFile)
    (now : Nat) (failAt : Option Nat) (opIdx : Nat) :
    Except MemStorage (List ProjectFile × Nat × MemStorage) :=
  match files with
  | [] => .ok ([], 0, st)
  | file :: rest =>
    if failAt = some opIdx then .error st
    else
      let content := file.buffer
      let language := detectLanguage file.originalname
      let lines := lineCount content
      let created := createProjectFile st projectId
        { path := file.originalname, content := content,
          language := some language, size := some file.size } now
      match uploadLoop created.2 projectId rest now failAt (opIdx + 1) with
      | .error stFail => .error stFail
      | .ok (uploadedRest, totalRest, stRest) =>
        .ok (created.1 :: uploadedRest, lines + totalRest, stRest)

/-- The `new Set(uploadedFiles.map(f => f.language).filter(Boolean)).size`
expression (`filter(Boolean)` drops both `null` and the empty string). -/
def languageSetSize (uploadedFiles : List ProjectFile) : Nat :=
  ((((uploadedFiles.map (·.language)).filterMap id).filter
    (fun s => ¬ s = "")).dedup).length

/-- Embedding of the `POST /api/projects/:id/upload` handler. Storage calls
are numbered in execution order: 0 `getProject`, 1 `deleteProjectFiles`,
2 to M+1 the `createProjectFile` calls, M+2 `updateProject`; `failAt` gives
the index of the call whose promise rejects (`none` for no failure), and a
rejection lands in the route's `catch`, which answers 500 with whatever
state mutations already happened. -/
def uploadHandler (st : MemStorage) (projectId : Nat) (files : List UploadFile)
    (now : Nat) (failAt : Option Nat) : UploadResponse × MemStorage :=
  if files.isEmpty then (.badRequest, st)
  else if failAt = some 0 then (.serverError, st)
  else
    match getProject st projectId with
    | none => (.notFound, st)
    | some _ =>
      if failAt = some 1 then (.serverError, st)
      else
        let st1 := (deleteProjectFiles st projectId).2
        match uploadLoop st1 projectId files now failAt 2 with
        | .error st2 => (.serverError, st2)
        | .ok (uploadedFiles, totalLines, st2) =>
          if failAt = some (2 + files.length) then (.serverError, st2)
          else
            let langCount := languageSetSize uploadedFiles
            let st3 := (updateProject st2 projectId
              { fileCount := some uploadedFiles.length,
                languageCount := some langCount,
                linesProcessed := some totalLines,
                lastScanAt := some (some now) }).2
            (.ok uploadedFiles.length langCount totalLines, st3)

/-- Responses of the `PATCH /api/files/:id` route. -/
inductive PatchResponse where
  | notFound
  | ok (file : ProjectFile)
deriving DecidableEq

/-- Embedding of the `PATCH /api/files/:id` handler: it forwards
`{ content }` from the request body to `updateProjectFile` and answers 404
when the file does not exist. -/
def patchFileHandler (st : MemStorage) (id : Nat) (content : String) :
    PatchResponse × MemStorage :=
  match updateProjectFile st id { content := some content } with
  | (none, st') => (.notFound, st')
  | (some file, st') => (.ok file, st')

/-! Generic lemmas about the association-list map model. -/

theorem mapKeys_append {α : Type} (a b : List (Nat × α)) :
    mapKeys (a ++ b) = mapKeys a ++ mapKeys b := by
  simp [mapKeys]

theorem mapValues_append {α : Type} (a b : List (Nat × α)) :
    mapValues (a ++ b) = mapValues a ++ mapValues b := by
  simp [mapValues]

theorem mapValues_filter_snd {α : Type} (q : α → Bool) (m : List (Nat × α)) :
    mapValues (m.filter (fun p => q p.2)) = (mapValues m).filter q := by
  induction m with
  | nil => rfl
  | cons p m ih =>
    by_cases h : q p.2 <;> simp [mapValues, List.filter_cons, h] <;>
      simpa [mapValues] using ih

theorem mapHas_eq_false_of_lt {α : Type} {m : List (Nat × α)} {n : Nat}
    (h : ∀ k ∈ mapKeys m, k < n) : mapHas m n = false := by
  simp only [mapHas, List.any_eq_false]
  intro p hp
  have := h p.1 (List.mem_map_of_mem Prod.fst hp)
  simp
  omega

theorem mapGet_cons {α : Type} (p : Nat × α) (m : List (Nat × α)) (k : Nat) :
    mapGet (p :: m) k = if p.1 = k then some p.2 else mapGet m k := by
  by_cases h : p.1 = k <;> simp [mapGet, List.find?_cons, h]

theorem mapHas_cons {α : Type} (p : Nat × α) (m : List (Nat × α)) (k : Nat) :
    mapHas (p :: m) k = (decide (p.1 = k) || mapHas m k) := by
  simp [mapHas, List.any_cons]

theorem mapGet_of_nodup {α : Type} {m : List (Nat × α)} (h : (mapKeys m).Nodup)
    {k : Nat} {v : α} (hm : (k, v) ∈ m) : mapGet m k = some v := by
  induction m with
  | nil => cases hm
  | cons p m ih =>
    have hcons : (p.1 :: mapKeys m).Nodup := by simpa [mapKeys] using h
    rcases List.mem_cons.mp hm with hhead | htail
    · rw [mapGet_cons, ← hhead]
      simp
    · have hne : ¬ p.1 = k := by
        intro hc
        exact (List.nodup_cons.mp hcons).1 (hc ▸ List.mem_map_of_mem Prod.fst htail)
      rw [mapGet_cons, if_neg hne]
      exact ih (List.nodup_cons.mp hcons).2 htail

theorem mapGet_substMap {α : Type} (k : Nat) (v : α) :
    ∀ (m : List (Nat × α)) (k' : Nat),
      mapGet (m.map (fun p => if p.1 = k then (k, v) else p)) k' =
        if k' = k then (if mapHas m k then some v else none) else mapGet m k' := by
  intro m
  induction m with
  | nil =>
    intro k'
    by_cases hk' : k' = k <;> simp [mapGet, mapHas, hk']
  | cons p m ih =>
    intro k'
    simp only [List.map_cons]
    by_cases hpk : p.1 = k
    · rw [if_pos hpk, mapGet_cons]
      by_cases hk' : k' = k
      · subst hk'
        simp [mapHas_cons, hpk]
      · have hkk' : ¬ (k, v).1 = k' := fun hc => hk' hc.symm
        have hpk' : ¬ p.1 = k' := by
          rw [hpk]
          intro hc
          exact hk' hc.symm
        rw [if_neg hkk', ih k', if_neg hk', if_neg hk', mapGet_cons, if_neg hpk']
    · rw [if_neg hpk, mapGet_cons]
      by_cases hk' : k' = k
      · subst hk'
        rw [if_neg hpk, ih k', if_pos rfl, if_pos rfl, mapHas_cons]
        simp [hpk]
      · by_cases hp' : p.1 = k'
        · rw [if_pos hp', if_neg hk', mapGet_cons, if_pos hp']
        · rw [if_neg hp', ih k', if_neg hk', if_neg hk', mapGet_cons, if_neg hp']

theorem mapGet_append {α : Type} (m l : List (Nat × α)) (k : Nat) :
    mapGet (m ++ l) k = if mapHas m k then mapGet m k else mapGet l k := by
  induction m with
  | nil => simp [mapHas, mapGet]
  | cons p m ih =>
    simp only [List.cons_append]
    by_cases hp : p.1 = k
    · simp [mapGet_cons, mapHas_cons, hp]
    · simp [mapGet_cons, mapHas_cons, hp, ih]

theorem mapGet_eq_none_of_not_has {α : Type} (m : List (Nat × α)) (k : Nat)
    (h : ¬ mapHas m k = true) : mapGet m k = none := by
  induction m with
  | nil => rfl
  | cons p m ih =>
    rw [mapHas_cons] at h
    simp only [Bool.or_eq_true, decide_eq_true_eq] at h
    push_neg at h
    rw [mapGet_cons, if_neg h.1]
    exact ih h.2

theorem mapGet_mapSet_self {α : Type} (m : List (Nat × α)) (k : Nat) (v : α) :
    mapGet (mapSet m k v) k = some v := by
  unfold mapSet
  by_cases h : mapHas m k = true
  · rw [if_pos h, mapGet_substMap, if_pos rfl, if_pos h]
  · rw [if_neg h, mapGet_append, if_neg h, mapGet_cons]
    simp

theorem mapGet_mapSet_ne {α : Type} (m : List (Nat × α)) (k : Nat) (v : α)
    (k' : Nat) (hne : ¬ k' = k) : mapGet (mapSet m k v) k' = mapGet m k' := by
  unfold mapSet
  by_cases h : mapHas m k = true
  · rw [if_pos h, mapGet_substMap, if_neg hne]
  · rw [if_neg h, mapGet_append]
    by_cases hk' : mapHas m k' = true
    · rw [if_pos hk']
    · rw [if_neg hk', mapGet_eq_none_of_not_has m k' hk', mapGet_cons]
      have : ¬ (k, v).1 = k' := fun hc => hne hc.symm
      rw [if_neg this]
      rfl

theorem foldl_mapDelete_eq_filter {α : Type} (K : List Nat) (m : List (Nat × α)) :
    K.foldl mapDelete m = m.filter (fun p => decide (¬ p.1 ∈ K)) := by
  induction K generalizing m with
  | nil => simp
  | cons k K ih =>
    rw [List.foldl_cons, ih, mapDelete, List.filter_filter]
    apply List.filter_congr
    intro p _
    by_cases h1 : p.1 = k <;> by_cases h2 : p.1 ∈ K <;> simp [h1, h2]

theorem foldl_delete_matching {α : Type} (m : List (Nat × α)) (sel : α → Bool)
    (h : (mapKeys m).Nodup) :
    ((mapKeys m).filter (fun k => (mapGet m k).any sel)).foldl mapDelete m
      = m.filter (fun p => ! sel p.2) := by
  rw [foldl_mapDelete_eq_filter]
  apply List.filter_congr
  intro p hp
  have hk : mapGet m p.1 = some p.2 := mapGet_of_nodup h hp
  have hmem : p.1 ∈ mapKeys m := List.mem_map_of_mem Prod.fst hp
  simp only [List.mem_filter, hk, Option.any_some, decide_not, hmem, true_and,
    Bool.not_eq_true', decide_eq_false_iff_not]
  by_cases hs : sel p.2 = true <;> simp [hs]

theorem deleteProjectFiles_state (st : MemStorage) (projectId : Nat)
    (h : (mapKeys st.projectFiles).Nodup) :
    (deleteProjectFiles st projectId).2 =
      { st with projectFiles :=
          st.projectFiles.filter (fun p => ! decide (p.2.projectId = projectId)) } := by
  unfold deleteProjectFiles
  dsimp only
  rw [foldl_delete_matching st.projectFiles (fun f => decide (f.projectId = projectId)) h]

theorem deleteProject_state (st : MemStorage) (id : Nat)
    (hfiles : (mapKeys st.projectFiles).Nodup)
    (hanalyses : (mapKeys st.analysisResults).Nodup) :
    deleteProject st id =
      (mapHas st.projects id,
       { st with
          projects := mapDelete st.projects id,
          projectFiles :=
            st.projectFiles.filter (fun p => ! decide (p.2.projectId = id)),
          analysisResults :=
            st.analysisResults.filter (fun p => ! decide (p.2.projectId = id)) }) := by
  unfold deleteProject
  rw [deleteProjectFiles_state st id hfiles]
  dsimp only
  rw [foldl_delete_matching st.analysisResults (fun a => decide (a.projectId = id)) hanalyses]

/-! Lemmas about the descending sort used by `getLatestAnalysis`. -/

theorem mem_insertByCreatedAtDesc (a x : AnalysisResult) :
    ∀ l : List AnalysisResult,
      x ∈ insertByCreatedAtDesc a l ↔ x = a ∨ x ∈ l := by
  intro l
  induction l with
  | nil => simp [insertByCreatedAtDesc]
  | cons b rest ih =>
    by_cases h : a.createdAt ≤ b.createdAt
    · rw [insertByCreatedAtDesc, if_pos h, List.mem_cons, ih, List.mem_cons]
      tauto
    · rw [insertByCreatedAtDesc, if_neg h, List.mem_cons, List.mem_cons]

theorem mem_sortByCreatedAtDesc (x : AnalysisResult) :
    ∀ l : List AnalysisResult, x ∈ sortByCreatedAtDesc l ↔ x ∈ l := by
  intro l
  induction l with
  | nil => simp [sortByCreatedAtDesc]
  | cons a rest ih =>
    simp only [sortByCreatedAtDesc, mem_insertByCreatedAtDesc, ih, List.mem_cons]

theorem insertByCreatedAtDesc_ne_nil (a : AnalysisResult) (l : List AnalysisResult) :
    ¬ insertByCreatedAtDesc a l = [] := by
  cases l with
  | nil => simp [insertByCreatedAtDesc]
  | cons b rest =>
    by_cases h : a.createdAt ≤ b.createdAt <;> simp [insertByCreatedAtDesc, h]

theorem sortByCreatedAtDesc_eq_nil_iff (l : List AnalysisResult) :
    sortByCreatedAtDesc l = [] ↔ l = [] := by
  cases l with
  | nil => simp [sortByCreatedAtDesc]
  | cons a rest =>
    simp [sortByCreatedAtDesc, insertByCreatedAtDesc_ne_nil]

theorem head_insertByCreatedAtDesc (a : AnalysisResult) (l : List AnalysisResult) :
    ∀ h, (insertByCreatedAtDesc a l).head? = some h →
      a.createdAt ≤ h.createdAt ∧
      (∀ b hb, l.head? = some hb → b ∈ l → hb.createdAt = b.createdAt → True) ∧
      (∀ hb, l.head? = some hb → hb.createdAt ≤ h.createdAt) := by
  intro h hh
  cases l with
  | nil =>
    simp [insertByCreatedAtDesc] at hh
    subst hh
    exact ⟨le_refl _, fun _ _ _ _ _ => trivial, by simp⟩
  | cons b rest =>
    by_cases hle : a.createdAt ≤ b.createdAt
    · simp only [insertByCreatedAtDesc, if_pos hle, List.head?_cons, Option.some_inj] at hh
      subst hh
      exact ⟨hle, fun _ _ _ _ _ => trivial, by simp⟩
    · simp only [insertByCreatedAtDesc, if_neg hle, List.head?_cons, Option.some_inj] at hh
      subst hh
      refine ⟨le_refl _, fun _ _ _ _ _ => trivial, ?_⟩
      intro hb hhb
      simp only [List.head?_cons, Option.some_inj] at hhb
      subst hhb
      omega

theorem head_sortByCreatedAtDesc_max :
    ∀ (l : List AnalysisResult) (h : AnalysisResult),
      (sortByCreatedAtDesc l).head? = some h →
      ∀ a ∈ l, a.createdAt ≤ h.createdAt := by
  intro l
  induction l with
  | nil => intro h hh; simp [sortByCreatedAtDesc] at hh
  | cons b rest ih =>
    intro h hh a ha
    simp only [sortByCreatedAtDesc] at hh
    obtain ⟨hbh, _, hheads⟩ := head_insertByCreatedAtDesc b (sortByCreatedAtDesc rest) h hh
    rcases List.mem_cons.mp ha with rfl | hrest
    · exact hbh
    · cases hsort : (sortByCreatedAtDesc rest).head? with
      | none =>
        have hnil : sortByCreatedAtDesc rest = [] := List.head?_eq_none_iff.mp hsort
        have hrnil : rest = [] := (sortByCreatedAtDesc_eq_nil_iff rest).mp hnil
        subst hrnil
        exact absurd hrest (List.not_mem_nil a)
      | some hr =>
        exact le_trans (ih hr hsort a hrest) (hheads hr hsort)

theorem detectLanguage_ne_empty (filename : String) : ¬ detectLanguage filename = "" := by
  unfold detectLanguage
  cases h : languageMap (lowerExt filename) with
  | none => decide
  | some v =>
    have : ¬ v = "" := by
      unfold languageMap at h
      split at h <;>
        first
          | exact Option.noConfusion h
          | (injection h with h2
             subst h2
             decide)
    simpa using this

/-! Characterization of the upload loop and the upload handler. -/

theorem uploadLoop_ok_spec (projectId now : Nat) (failAt : Option Nat) :
    ∀ (files : List UploadFile) (opIdx : Nat) (st : MemStorage)
      (uploaded : List ProjectFile) (total : Nat) (st' : MemStorage),
      (∀ k ∈ mapKeys st.projectFiles, k < st.nextId) →
      uploadLoop st projectId files now failAt opIdx = .ok (uploaded, total, st') →
      st'.users = st.users ∧ st'.projects = st.projects ∧
      st'.analysisResults = st.analysisResults ∧
      st'.nextId = st.nextId + files.length ∧
      st'.projectFiles = st.projectFiles ++ uploaded.map (fun pf => (pf.id, pf)) ∧
      uploaded.map (·.path) = files.map (·.originalname) ∧
      uploaded.map (·.content) = files.map (·.buffer) ∧
      uploaded.map (·.language) =
        files.map (fun f => some (detectLanguage f.originalname)) ∧
      ∀ pf ∈ uploaded, pf.projectId = projectId ∧ st.nextId ≤ pf.id := by
  intro files
  induction files with
  | nil =>
    intro opIdx st uploaded total st' hlt h
    simp only [uploadLoop, Except.ok.injEq, Prod.mk.injEq] at h
    obtain ⟨hu, ht, hst⟩ := h
    subst hu
    subst hst
    refine ⟨rfl, rfl, rfl, by simp, by simp, rfl, rfl, rfl, by simp⟩
  | cons file rest ih =>
    intro opIdx st uploaded total st' hlt h
    simp only [uploadLoop] at h
    rw [if_neg (by intro hc; rw [hc] at h; simp at h)] at h
    split at h
    · simp at h
    · rename_i us t st2 heq
      simp only [Except.ok.injEq, Prod.mk.injEq] at h
      obtain ⟨hu, ht, hst⟩ := h
      have hfresh : mapHas st.projectFiles st.nextId = false :=
        mapHas_eq_false_of_lt hlt
      have hset : ∀ v : ProjectFile,
          mapSet st.projectFiles st.nextId v = st.projectFiles ++ [(st.nextId, v)] := by
        intro v
        unfold mapSet
        rw [hfresh]
        simp
      have hlt1 : ∀ k ∈ mapKeys
          (createProjectFile st projectId
            { path := file.originalname, content := file.buffer,
              language := some (detectLanguage file.originalname),
              size := some file.size } now).2.projectFiles,
          k < (createProjectFile st projectId
            { path := file.originalname, content := file.buffer,
              language := some (detectLanguage file.originalname),
              size := some file.size } now).2.nextId := by
        show ∀ k ∈ mapKeys (mapSet st.projectFiles st.nextId _), k < st.nextId + 1
        rw [hset]
        intro k hk
        rw [mapKeys_append] at hk
        rcases List.mem_append.mp hk with hold | hnew
        · exact Nat.lt_succ_of_lt (hlt k hold)
        · simp [mapKeys] at hnew
          omega
      obtain ⟨i1, i2, i3, i4, i5, i6, i7, i8, i9⟩ :=
        ih (opIdx + 1) _ us t st2 hlt1 heq
      subst hu
      subst hst
      subst ht
      refine ⟨i1, i2, i3, ?_, ?_, ?_, ?_, ?_, ?_⟩
      · rw [i4]
        show st.nextId + 1 + rest.length = st.nextId + (rest.length + 1)
        omega
      · rw [i5]
        show mapSet st.projectFiles st.nextId _ ++ _ = _
        rw [hset]
        rw [List.append_assoc]
        rfl
      · simp only [List.map_cons, i6]
        rfl
      · simp only [List.map_cons, i7]
        rfl
      · simp only [List.map_cons, i8]
        rfl
      · intro pf hpf
        rcases List.mem_cons.mp hpf with hhead | htail
        · subst hhead
          exact ⟨rfl, le_refl _⟩
        · obtain ⟨hp, hid⟩ := i9 pf htail
          refine ⟨hp, ?_⟩
          have : st.nextId + 1 ≤ pf.id := hid
          omega

theorem mapValues_filter_projectFile (m : List (Nat × ProjectFile)) (pid : Nat) :
    mapValues (m.filter (fun p => ! decide (p.2.projectId = pid))) =
      (mapValues m).filter (fun f => ! decide (f.projectId = pid)) :=
  mapValues_filter_snd (fun f => ! decide (f.projectId = pid)) m

theorem mapValues_map_pair (l : List ProjectFile) :
    mapValues (l.map (fun pf => (pf.id, pf))) = l := by
  induction l with
  | nil => rfl
  | cons a t ih => simpa [mapValues] using ih

theorem uploadHandler_ok_spec (st : MemStorage) (projectId : Nat)
    (files : List UploadFile) (now : Nat) (failAt : Option Nat)
    (fc lc lp : Nat) (st' : MemStorage)
    (hnodup : (mapKeys st.projectFiles).Nodup)
    (hlt : ∀ k ∈ mapKeys st.projectFiles, k < st.nextId)
    (h : uploadHandler st projectId files now failAt = (.ok fc lc lp, st')) :
    ∃ (p : Project) (uploaded : List ProjectFile),
      mapGet st.projects projectId = some p ∧
      getProjectFiles st' projectId = uploaded ∧
      uploaded.map (·.path) = files.map (·.originalname) ∧
      uploaded.map (·.content) = files.map (·.buffer) ∧
      uploaded.map (·.language) =
        files.map (fun f => some (detectLanguage f.originalname)) ∧
      (∀ pf ∈ uploaded, st.nextId ≤ pf.id) ∧
      fc = uploaded.length ∧ lc = languageSetSize uploaded ∧ st'.nextId = st.nextId + files.length ∧
      mapGet st'.projects projectId =
        some { p with
          fileCount := fc,
          languageCount := lc,
          linesProcessed := lp,
          lastScanAt := some now } := by
  simp only [uploadHandler] at h
  split at h
  · simp at h
  · split at h
    · simp at h
    · split at h
      · simp at h
      · rename_i p hp
        split at h
        · simp at h
        · split at h
          · simp at h
          · rename_i uploadedFiles totalLines st2 heqloop
            split at h
            · simp at h
            · rw [deleteProjectFiles_state st projectId hnodup] at heqloop
              have hlt1 : ∀ k ∈ mapKeys (List.filter
                  (fun q => ! decide (q.2.projectId = projectId)) st.projectFiles),
                  k < st.nextId := by
                intro k hk
                apply hlt
                simp only [mapKeys] at hk ⊢
                exact ((List.filter_sublist _).map Prod.fst).subset hk
              obtain ⟨i1, i2, i3, i4, i5, i6, i7, i8, i9⟩ :=
                uploadLoop_ok_spec projectId now failAt files 2 _
                  uploadedFiles totalLines st2 hlt1 heqloop
              have hp2 : mapGet st2.projects projectId = some p := by
                rw [i2]
                exact hp
              simp only [updateProject, hp2, Prod.mk.injEq, UploadResponse.ok.injEq] at h
              obtain ⟨⟨hfc, hlc, hlp⟩, hst'⟩ := h
              refine ⟨p, uploadedFiles, hp, ?_, i6, i7, i8, ?_, hfc.symm, hlc.symm, ?_, ?_⟩
              · rw [← hst']
                show ((mapValues st2.projectFiles).filter
                  (fun file => decide (file.projectId = projectId))) = uploadedFiles
                rw [i5, mapValues_append, List.filter_append]
                have h1 : (mapValues
                    (st.projectFiles.filter
                      (fun q => ! decide (q.2.projectId = projectId)))).filter
                    (fun file => decide (file.projectId = projectId)) = [] := by
                  rw [mapValues_filter_projectFile, List.filter_filter]
                  simp
                have h2 : (mapValues
                    (uploadedFiles.map (fun pf => (pf.id, pf)))).filter
                    (fun file => decide (file.projectId = projectId)) = uploadedFiles := by
                  have hv := mapValues_map_pair uploadedFiles
                  rw [hv]
                  apply List.filter_eq_self.mpr
                  intro pf hpf
                  simp [(i9 pf hpf).1]
                rw [h1, h2]
                rfl
              · intro pf hpf
                exact (i9 pf hpf).2
              · rw [← hst']
                exact i4
              · rw [← hst']
                show mapGet (mapSet st2.projects projectId
                  (applyProjectUpdates p _)) projectId = _
                rw [mapGet_mapSet_self]
                rw [hfc, hlc, hlp]
                rfl

/-! Auxiliary list lemmas for the language-count argument. -/

theorem filterMap_id_map {α β : Type} (f : α → Option β) (l : List α) :
    (l.map f).filterMap id = l.filterMap f := by
  induction l with
  | nil => rfl
  | cons a t ih => cases h : f a <;> simp [List.filterMap_cons, h, ih]

theorem filterMap_id_map_some {α β : Type} (g : α → β) (l : List α) :
    (l.map (fun a => some (g a))).filterMap id = l.map g := by
  induction l with
  | nil => rfl
  | cons a t ih => simp [List.filterMap_cons, ih]

theorem languageSetSize_eq_dedup_filterMap (u : List ProjectFile) (names : List String)
    (hlang : u.map (·.language) = names.map (fun n => some (detectLanguage n))) :
    languageSetSize u = ((u.filterMap (·.language)).dedup).length := by
  unfold languageSetSize
  have h1 : (u.map (·.language)).filterMap id = u.filterMap (·.language) :=
    filterMap_id_map _ u
  have h2 : u.filterMap (·.language) = names.map detectLanguage := by
    rw [← h1, hlang, filterMap_id_map_some]
  rw [h1, h2]
  have h3 : (names.map detectLanguage).filter (fun s => ¬ s = "") =
      names.map detectLanguage := by
    apply List.filter_eq_self.mpr
    intro s hs
    obtain ⟨n, _, rfl⟩ := List.mem_map.mp hs
    simp [detectLanguage_ne_empty n]
  rw [h3]

theorem mapHas_iff_mapGet {α : Type} (m : List (Nat × α)) (k : Nat) :
    mapHas m k = true ↔ ¬ mapGet m k = none := by
  induction m with
  | nil => simp [mapHas, mapGet]
  | cons p m ih =>
    by_cases hp : p.1 = k <;> simp [mapHas_cons, mapGet_cons, hp, ih]

theorem mapGet_mapDelete_self {α : Type} (m : List (Nat × α)) (k : Nat) :
    mapGet (mapDelete m k) k = none := by
  induction m with
  | nil => rfl
  | cons p m ih =>
    rw [mapDelete, List.filter_cons]
    by_cases hp : p.1 = k
    · rw [if_neg (by simp [hp])]
      exact ih
    · rw [if_pos (by simp [hp])]
      rw [mapGet_cons, if_neg hp]
      exact ih

theorem mapValues_filter_analysis (m : List (Nat × AnalysisResult)) (pid : Nat) :
    mapValues (m.filter (fun p => ! decide (p.2.projectId = pid))) =
      (mapValues m).filter (fun a => ! decide (a.projectId = pid)) :=
  mapValues_filter_snd (fun a => ! decide (a.projectId = pid)) m

/-! Concrete states used by the witnesses and counterexamples. -/

/-- A project with one stored file, used as starting state in witnesses. -/
def wProject : Project :=
  { id := 1, userId := 0, name := "demo", description := none, fileCount := 1,
    languageCount := 1, lastScanAt := none, linesProcessed := 1, createdAt := 0 }

/-- The file stored for `wProject` before any re-upload. -/
def wOldFile : ProjectFile :=
  { id := 2, projectId := 1, path := "old.js", content := "x",
    language := some "javascript", size := some 1, createdAt := 0 }

/-- Storage state holding `wProject` with `wOldFile`. -/
def wState : MemStorage :=
  { users := [], projects := [(1, wProject)], projectFiles := [(2, wOldFile)],
    analysisResults := [], nextId := 3 }

/-- A two-file upload batch (a Python file and a TypeScript file). -/
def wNewFiles : List UploadFile :=
  [{ originalname := "a.py", buffer := "p", size := 1 },
   { originalname := "b.ts", buffer := "q\nr", size := 3 }]

/-- An analysis row referencing project 1, for the cascade-delete witness. -/
def wAnalysisOld : AnalysisResult :=
  { id := 5, projectId := 1, data := .null, createdAt := 7 }

/-- Storage state with a project, a file and an analysis, for cascade delete. -/
def wStateC6 : MemStorage :=
  { users := [], projects := [(1, wProject)], projectFiles := [(2, wOldFile)],
    analysisResults := [(5, wAnalysisOld)], nextId := 6 }

/-- Project-only state used to build the latest-analysis witness. -/
def wStateA : MemStorage :=
  { users := [], projects := [(1, wProject)], projectFiles := [],
    analysisResults := [], nextId := 3 }

/-- State after creating analyses for project 1 at times 1 and then 5. -/
def wStateA2 : MemStorage :=
  (createAnalysis (createAnalysis wStateA 1 (.str "one") 1).2 1 (.str "two") 5).2

/-- The analysis record created second (at time 5) in `wStateA2`. -/
def wAnalysisT2 : AnalysisResult :=
  { id := 4, projectId := 1, data := .str "two", createdAt := 5 }

/-- A one-file batch handed to the analysis dispatcher. -/
def c2Files : List FileData :=
  [{ path := "a.ts", content := "x", language := "typescript" }]

/-! Claim theorems. -/

/-- Claim C1 (counterexample): the replace-files operation is not atomic on
failure. Starting from a project holding one file, an upload of two files
whose second `createProjectFile` call rejects answers 500, yet the old file
set is not left intact: the old file is gone and only the first new file is
stored, so a partial replacement is persisted. -/
theorem c1_upload_failure_counterexample :
    (uploadHandler wState 1 wNewFiles 10 (some 3)).1 = .serverError ∧
    getProjectFiles wState 1 = [wOldFile] ∧
    getProjectFiles (uploadHandler wState 1 wNewFiles 10 (some 3)).2 1 =
      [{ id := 3, projectId := 1, path := "a.py", content := "p",
         language := some "python", size := some 1, createdAt := 10 }] ∧
    ¬ getProjectFiles (uploadHandler wState 1 wNewFiles 10 (some 3)).2 1 =
        getProjectFiles wState 1 :=
  ⟨rfl, rfl, rfl, by decide⟩

/-- Claim C1 (amended): what does hold is that a partial replacement is never
reported as a success: whenever the upload route answers with the success
response, the project's stored file set has exactly one file per uploaded
file and contains no file that predates the upload. -/
theorem c1_success_is_never_partial (st : MemStorage) (projectId : Nat)
    (files : List UploadFile) (now : Nat) (failAt : Option Nat)
    (fc lc lp : Nat) (st' : MemStorage) (hwf : WF st)
    (h : uploadHandler st projectId files now failAt = (.ok fc lc lp, st')) :
    (getProjectFiles st' projectId).length = files.length ∧
    ∀ pf ∈ getProjectFiles st' projectId, st.nextId ≤ pf.id := by
  obtain ⟨p, uploaded, _, hstored, hpaths, _, _, hfresh, _, _, _, _⟩ :=
    uploadHandler_ok_spec st projectId files now failAt fc lc lp st'
      hwf.2.2.1.1 hwf.2.2.1.2 h
  rw [hstored]
  refine ⟨?_, hfresh⟩
  have := congrArg List.length hpaths
  simpa using this

/-- Witness for C1 (amended) at a concrete successful upload. -/
theorem c1_success_is_never_partial_applied :
    (getProjectFiles (uploadHandler wState 1 wNewFiles 10 none).2 1).length =
      wNewFiles.length ∧
    ∀ pf ∈ getProjectFiles (uploadHandler wState 1 wNewFiles 10 none).2 1,
      wState.nextId ≤ pf.id :=
  c1_success_is_never_partial wState 1 wNewFiles 10 none 2 2 3
    (uploadHandler wState 1 wNewFiles 10 none).2 (by decide) rfl

/-- Claim C2 (counterexample): when `invokeAI` rejects, `analyzeCodebase`
returns the demo fallback, which has two language entries, two issues and
two suggestions, not the one-language/empty-lists fallback the claim
describes. -/
theorem c2_backend_failure_counterexample :
    analyzeCodebase c2Files (.threw "All Bedrock models and OpenAI fallback failed") =
      .ok (demoAnalysisJson c2Files) ∧
    jsonObjSize ((jsonField (demoAnalysisJson c2Files) "detectedLanguages").getD .null) = 2 ∧
    ¬ jsonObjSize ((jsonField (demoAnalysisJson c2Files) "detectedLanguages").getD .null) = 1 ∧
    jsonArrLen ((jsonField (demoAnalysisJson c2Files) "issues").getD .null) = 2 ∧
    ¬ jsonArrLen ((jsonField (demoAnalysisJson c2Files) "issues").getD .null) = 0 ∧
    jsonArrLen ((jsonField (demoAnalysisJson c2Files) "suggestions").getD .null) = 2 ∧
    ¬ jsonArrLen ((jsonField (demoAnalysisJson c2Files) "suggestions").getD .null) = 0 :=
  ⟨rfl, rfl, by decide, rfl, by decide, rfl, by decide⟩

/-- Claim C2 (amended): when every backend fails (`invokeAI` rejects),
`analyzeCodebase` still returns without raising, but what it returns is the
demo fallback: two fixed language entries (TypeScript 85, JavaScript 15), a
demo architecture string, two canned issues and two canned suggestions. -/
theorem c2_backend_failure_demo_fallback (files : List FileData) (msg : String) :
    analyzeCodebase files (.threw msg) = .ok (demoAnalysisJson files) ∧
    jsonField (demoAnalysisJson files) "detectedLanguages" =
      some (.obj [("TypeScript", .num 85), ("JavaScript", .num 15)]) ∧
    jsonField (demoAnalysisJson files) "architecture" =
      some (.str "Express.js REST API with TypeScript, featuring modular route organization and authentication middleware") ∧
    jsonArrLen ((jsonField (demoAnalysisJson files) "issues").getD .null) = 2 ∧
    jsonArrLen ((jsonField (demoAnalysisJson files) "suggestions").getD .null) = 2 :=
  ⟨rfl, rfl, rfl, rfl, rfl⟩

/-- Claim C3 (counterexample): a response that is valid JSON but not valid
structured output (here the empty object) is returned as-is by
`analyzeCodebase` with no shape validation, so the caller receives a value
whose `detectedLanguages` member is absent (null), contradicting the claim
that the result always carries a non-null `detectedLanguages` map. -/
theorem c3_nonconforming_json_counterexample :
    conformsToAnalysisShape (.obj []) = false ∧
    analyzeCodebase [] (.returned (some (.obj []))) = .ok (.obj []) ∧
    jsonField (.obj []) "detectedLanguages" = none ∧
    jsonField (.obj []) "issues" = none ∧
    jsonField (.obj []) "suggestions" = none :=
  ⟨rfl, rfl, rfl, rfl, rfl⟩

/-- Claim C3 (amended): `analyzeCodebase` never throws to the route handler,
and when the response text is not valid JSON at all (`JSON.parse` throws) it
returns the parse fallback with one `unknown` language entry and empty issue
and suggestion lists; but a response that is valid JSON of the wrong shape
is passed through unvalidated. -/
theorem c3_never_throws_and_parse_fallback (files : List FileData)
    (outcome : InvokeOutcome) :
    (∃ j, analyzeCodebase files outcome = .ok j) ∧
    analyzeCodebase files (.returned none) = .ok parseErrorFallbackJson ∧
    jsonField parseErrorFallbackJson "detectedLanguages" =
      some (.obj [("unknown", .num 100)]) ∧
    jsonField parseErrorFallbackJson "issues" = some (.arr []) ∧
    jsonField parseErrorFallbackJson "suggestions" = some (.arr []) := by
  refine ⟨?_, rfl, rfl, rfl, rfl⟩
  cases outcome with
  | threw m => exact ⟨demoAnalysisJson files, rfl⟩
  | returned p =>
    cases p with
    | none => exact ⟨parseErrorFallbackJson, rfl⟩
    | some j => exact ⟨j, rfl⟩

/-- Claim C4: after every successful upload, the project's `fileCount`
equals the number of `ProjectFile` records actually stored for it, and its
`languageCount` equals the number of distinct non-null language tags among
those stored files. -/
theorem c4_upload_counters_consistent (st : MemStorage) (projectId : Nat)
    (files : List UploadFile) (now : Nat) (failAt : Option Nat)
    (fc lc lp : Nat) (st' : MemStorage) (hwf : WF st)
    (h : uploadHandler st projectId files now failAt = (.ok fc lc lp, st')) :
    (mapGet st'.projects projectId).map (·.fileCount) =
      some (getProjectFiles st' projectId).length ∧
    (mapGet st'.projects projectId).map (·.languageCount) =
      some (((getProjectFiles st' projectId).filterMap (·.language)).dedup).length := by
  obtain ⟨p, uploaded, _, hstored, _, _, hlangs, _, hfc, hlc, _, hproj⟩ :=
    uploadHandler_ok_spec st projectId files now failAt fc lc lp st'
      hwf.2.2.1.1 hwf.2.2.1.2 h
  have hlang' : uploaded.map (·.language) =
      (files.map (·.originalname)).map (fun n => some (detectLanguage n)) := by
    rw [List.map_map]
    exact hlangs
  have hsize := languageSetSize_eq_dedup_filterMap uploaded
    (files.map (·.originalname)) hlang'
  rw [hproj, hstored]
  constructor
  · simp only [Option.map_some']
    rw [hfc]
  · simp only [Option.map_some']
    rw [hlc, hsize]

/-- Witness for C4 at a concrete successful two-file upload. -/
theorem c4_upload_counters_consistent_applied :
    (mapGet ((uploadHandler wState 1 wNewFiles 10 none).2).projects 1).map (·.fileCount) =
      some (getProjectFiles (uploadHandler wState 1 wNewFiles 10 none).2 1).length ∧
    (mapGet ((uploadHandler wState 1 wNewFiles 10 none).2).projects 1).map (·.languageCount) =
      some (((getProjectFiles (uploadHandler wState 1 wNewFiles 10 none).2 1).filterMap
        (·.language)).dedup).length :=
  c4_upload_counters_consistent wState 1 wNewFiles 10 none 2 2 3
    (uploadHandler wState 1 wNewFiles 10 none).2 (by decide) rfl

/-- Claim C5: a successful upload of a batch of M files leaves exactly those
M files stored for the project, in batch order, with the freshly detected
languages; no file from before the upload survives. -/
theorem c5_upload_fully_replaces_files (st : MemStorage) (projectId : Nat)
    (files : List UploadFile) (now : Nat) (failAt : Option Nat)
    (fc lc lp : Nat) (st' : MemStorage) (hwf : WF st)
    (h : uploadHandler st projectId files now failAt = (.ok fc lc lp, st')) :
    (getProjectFiles st' projectId).map (·.path) = files.map (·.originalname) ∧
    (getProjectFiles st' projectId).map (·.content) = files.map (·.buffer) ∧
    (getProjectFiles st' projectId).map (·.language) =
      files.map (fun f => some (detectLanguage f.originalname)) ∧
    (getProjectFiles st' projectId).length = files.length ∧
    ∀ pf ∈ getProjectFiles st' projectId, st.nextId ≤ pf.id := by
  obtain ⟨p, uploaded, _, hstored, hpaths, hcontents, hlangs, hfresh, _, _, _, _⟩ :=
    uploadHandler_ok_spec st projectId files now failAt fc lc lp st'
      hwf.2.2.1.1 hwf.2.2.1.2 h
  rw [hstored]
  refine ⟨hpaths, hcontents, hlangs, ?_, hfresh⟩
  have := congrArg List.length hpaths
  simpa using this

/-- Witness for C5 at a concrete successful two-file upload. -/
theorem c5_upload_fully_replaces_files_applied :
    (getProjectFiles (uploadHandler wState 1 wNewFiles 10 none).2 1).map (·.path) =
      wNewFiles.map (·.originalname) ∧
    (getProjectFiles (uploadHandler wState 1 wNewFiles 10 none).2 1).map (·.content) =
      wNewFiles.map (·.buffer) ∧
    (getProjectFiles (uploadHandler wState 1 wNewFiles 10 none).2 1).map (·.language) =
      wNewFiles.map (fun f => some (detectLanguage f.originalname)) ∧
    (getProjectFiles (uploadHandler wState 1 wNewFiles 10 none).2 1).length =
      wNewFiles.length ∧
    ∀ pf ∈ getProjectFiles (uploadHandler wState 1 wNewFiles 10 none).2 1,
      wState.nextId ≤ pf.id :=
  c5_upload_fully_replaces_files wState 1 wNewFiles 10 none 2 2 3
    (uploadHandler wState 1 wNewFiles 10 none).2 (by decide) rfl

/-- Claim C6: `deleteProject` removes the project together with all its
`ProjectFile` and `AnalysisResult` records (afterwards zero files and zero
analyses reference the identifier, and the project itself is gone), and
returns true exactly when a project with that identifier existed. -/
theorem c6_delete_project_cascades (st : MemStorage) (id : Nat) (hwf : WF st) :
    ((deleteProject st id).1 = true ↔ ¬ mapGet st.projects id = none) ∧
    getProjectFiles (deleteProject st id).2 id = [] ∧
    (mapValues (deleteProject st id).2.analysisResults).filter
      (fun a => a.projectId = id) = [] ∧
    mapGet (deleteProject st id).2.projects id = none := by
  rw [deleteProject_state st id hwf.2.2.1.1 hwf.2.2.2.1]
  refine ⟨mapHas_iff_mapGet st.projects id, ?_, ?_, mapGet_mapDelete_self st.projects id⟩
  · show ((mapValues (st.projectFiles.filter
        (fun p => ! decide (p.2.projectId = id)))).filter
      (fun file => decide (file.projectId = id))) = []
    rw [mapValues_filter_projectFile, List.filter_filter]
    simp
  · show ((mapValues (st.analysisResults.filter
        (fun p => ! decide (p.2.projectId = id)))).filter
      (fun a => decide (a.projectId = id))) = []
    rw [mapValues_filter_analysis, List.filter_filter]
    simp

/-- Witness for C6 at a state holding a project with one file and one
analysis. -/
theorem c6_delete_project_cascades_applied :
    ((deleteProject wStateC6 1).1 = true ↔ ¬ mapGet wStateC6.projects 1 = none) ∧
    getProjectFiles (deleteProject wStateC6 1).2 1 = [] ∧
    (mapValues (deleteProject wStateC6 1).2.analysisResults).filter
      (fun a => a.projectId = 1) = [] ∧
    mapGet (deleteProject wStateC6 1).2.projects 1 = none :=
  c6_delete_project_cascades wStateC6 1 (by decide)

/-- Claim C7: `getLatestAnalysis` returns none exactly when the project has
no analyses, and any returned record belongs to the project and carries the
maximum creation timestamp among the project's stored analyses. -/
theorem c7_latest_analysis_is_max (st : MemStorage) (projectId : Nat) :
    (getLatestAnalysis st projectId = none ↔
      (mapValues st.analysisResults).filter (fun a => a.projectId = projectId) = []) ∧
    ∀ r, getLatestAnalysis st projectId = some r →
      r ∈ (mapValues st.analysisResults).filter (fun a => a.projectId = projectId) ∧
      ∀ a ∈ (mapValues st.analysisResults).filter (fun a => a.projectId = projectId),
        a.createdAt ≤ r.createdAt := by
  constructor
  · unfold getLatestAnalysis
    rw [List.head?_eq_none_iff]
    exact sortByCreatedAtDesc_eq_nil_iff _
  · intro r hr
    unfold getLatestAnalysis at hr
    cases hs : sortByCreatedAtDesc
        ((mapValues st.analysisResults).filter (fun a => a.projectId = projectId)) with
    | nil =>
      rw [hs] at hr
      simp at hr
    | cons b rest =>
      rw [hs] at hr
      simp only [List.head?_cons, Option.some_inj] at hr
      subst hr
      constructor
      · have hmem : b ∈ sortByCreatedAtDesc
            ((mapValues st.analysisResults).filter (fun a => a.projectId = projectId)) := by
          rw [hs]
          exact List.mem_cons_self _ _
        exact (mem_sortByCreatedAtDesc b _).mp hmem
      · intro a ha
        refine head_sortByCreatedAtDesc_max _ b ?_ a ha
        rw [hs]
        rfl

/-- Witness for C7: after creating analyses for the same project at times
1 and then 5, the record created at time 5 is returned and dominates. -/
theorem c7_latest_analysis_is_max_applied :
    getLatestAnalysis wStateA2 1 = some wAnalysisT2 ∧
    (wAnalysisT2 ∈ (mapValues wStateA2.analysisResults).filter
      (fun a => a.projectId = 1) ∧
     ∀ a ∈ (mapValues wStateA2.analysisResults).filter (fun a => a.projectId = 1),
       a.createdAt ≤ wAnalysisT2.createdAt) :=
  ⟨rfl, (c7_latest_analysis_is_max wStateA2 1).2 wAnalysisT2 rfl⟩

/-- Claim C8: patching a file identifier that does not resolve to an
existing `ProjectFile` answers not-found and leaves the storage state
entirely unchanged (no record created, no record modified). -/
theorem c8_patch_missing_file_noop (st : MemStorage) (id : Nat) (content : String)
    (h : mapGet st.projectFiles id = none) :
    patchFileHandler st id content = (.notFound, st) := by
  unfold patchFileHandler updateProjectFile
  rw [h]

/-- Witness for C8 at a concrete state and an unused identifier. -/
theorem c8_patch_missing_file_noop_applied :
    patchFileHandler wState 99 "new content" = (.notFound, wState) :=
  c8_patch_missing_file_noop wState 99 "new content" rfl

/-- Claim C9: a successful patch of an existing file updates only its
`content` field: the response and the stored record equal the old record
with just the content replaced (same id, project reference, path, language,
size and creation timestamp), and every other stored file is untouched. -/
theorem c9_patch_updates_only_content (st : MemStorage) (id : Nat)
    (f : ProjectFile) (newContent : String)
    (h : mapGet st.projectFiles id = some f) :
    (patchFileHandler st id newContent).1 = .ok { f with content := newContent } ∧
    mapGet (patchFileHandler st id newContent).2.projectFiles id =
      some { f with content := newContent } ∧
    ∀ k, ¬ k = id →
      mapGet (patchFileHandler st id newContent).2.projectFiles k =
        mapGet st.projectFiles k := by
  have hu : updateProjectFile st id { content := some newContent } =
      (some { f with content := newContent },
       { st with projectFiles := mapSet st.projectFiles id { f with content := newContent } }) := by
    unfold updateProjectFile
    rw [h]
    rfl
  have hph : patchFileHandler st id newContent =
      (.ok { f with content := newContent },
       { st with projectFiles := mapSet st.projectFiles id { f with content := newContent } }) := by
    unfold patchFileHandler
    rw [hu]
  refine ⟨by rw [hph], ?_, ?_⟩
  · rw [hph]
    exact mapGet_mapSet_self st.projectFiles id _
  · intro k hk
    rw [hph]
    exact mapGet_mapSet_ne st.projectFiles id _ k hk

/-- Witness for C9 patching the stored file of `wState`. -/
theorem c9_patch_updates_only_content_applied :
    (patchFileHandler wState 2 "updated").1 =
      .ok { wOldFile with content := "updated" } ∧
    mapGet (patchFileHandler wState 2 "updated").2.projectFiles 2 =
      some { wOldFile with content := "updated" } ∧
    ∀ k, ¬ k = 2 →
      mapGet (patchFileHandler wState 2 "updated").2.projectFiles k =
        mapGet wState.projectFiles k :=
  c9_patch_updates_only_content wState 2 wOldFile "updated" rfl

/-- Claim C10: an upload request carrying an empty file batch is rejected
with the 400 validation response before any storage call happens, leaving
the state (file set and counters) completely unchanged, whatever the
failure oracle says. -/
theorem c10_empty_upload_rejected (st : MemStorage) (projectId now : Nat)
    (failAt : Option Nat) :
    uploadHandler st projectId [] now failAt = (.badRequest, st) :=
  rfl
